import Mathlib

/-!
Verification of the spatial-coverage matching engine of `bdot.py`.

The program finds line features present in the BDOT topographic dataset but
missing from OpenStreetMap.  Its core is:
  - `h3LineLatLng`: adaptive recursive rasterization of a segment into h3 cells,
  - `processLineIntoH3Set`: coverage of a polyline, dilated per discovered cell,
  - `processOSMDataIntoH3Set`: the authoritative coverage set (dilation 1),
  - the matching loop of `processTheme`: per-feature coverage at dilation 0,
    intersection test against the authoritative set,
  - `processTheme`: per-(theme, region) orchestration with skip-on-existing
    artifact and a two-task fetch join (`asyncio.gather`).

Geographic coordinates are embedded as rationals, the external h3 library as an
abstract `H3Model`, the unbounded Python recursion via an explicit fuel
parameter (a call returns `none` when the fuel is exhausted), and the
filesystem plus fetch providers of the orchestrator as explicit parameters,
with the observable effects recorded in an event trace.
-/

/-- Geographic point as a (longitude, latitude) pair of rationals; GeoJSON
coordinate pairs are ordered (lng, lat). -/
abbrev Point := ℚ × ℚ

/-- Fixed hex-grid resolution of the program: `H3_RESOLUTION = 12`. -/
def H3_RESOLUTION : ℕ := 12

/-- Chebyshev distance between two coordinate pairs, used to state that
bisection at the geographic midpoint halves the segment length. -/
def chebDist (p q : Point) : ℚ := max |p.1 - q.1| |p.2 - q.2|

/-- Geographic midpoint of a segment:
`middle = ((start[0] + end[0]) / 2, (start[1] + end[1]) / 2)`. -/
def midPoint (s e : Point) : Point := ((s.1 + e.1) / 2, (s.2 + e.2) / 2)

/-- Interface of the external h3 library as used by the program: point-to-cell
mapping at a resolution (`h3.geo_to_h3`), hex-graph distance (`h3.h3_distance`)
and neighbourhood disk (`h3.k_ring`).  `C` is the type of cell identifiers. -/
structure H3Model (C : Type) where
  geoToH3 : ℚ → ℚ → ℕ → C
  h3Distance : C → C → ℤ
  kRing : C → ℕ → Finset C

variable {C : Type} [DecidableEq C]
variable {α β : Type}

/-- Cell of a point: `h3.geo_to_h3(p[1], p[0], H3_RESOLUTION)` — latitude is
passed first, longitude second. -/
def cellOf (M : H3Model C) (p : Point) : C := M.geoToH3 p.2 p.1 H3_RESOLUTION

/-- Recursive segment rasterization `h3LineLatLng(start, end)`.  The Python
recursion is unbounded; `fuel` bounds the call depth and a call returns `none`
when it is exhausted.  If the endpoint cells coincide or are hex-graph
adjacent, the pair of cells is returned; otherwise the segment is bisected at
its geographic midpoint and the two halves are unioned. -/
def h3LineLatLng (M : H3Model C) : ℕ → Point → Point → Option (Finset C)
  | 0, _, _ => none
  | fuel + 1, s, e =>
    if cellOf M s = cellOf M e ∨ M.h3Distance (cellOf M s) (cellOf M e) = 1 then
      some {cellOf M s, cellOf M e}
    else
      match h3LineLatLng M fuel s (midPoint s e), h3LineLatLng M fuel (midPoint s e) e with
      | some a, some b => some (a ∪ b)
      | _, _ => none

/-- Dilation step of `processLineIntoH3Set`: for each cell of a segment set,
`result.update(h3.k_ring(point, neighbourhood_size))`. -/
def dilate (M : H3Model C) (n : ℕ) (s : Finset C) : Finset C :=
  s.biUnion fun c => M.kRing c n

/-- Coverage builder `processLineIntoH3Set(line, result, neighbourhood_size)`:
for every consecutive point pair of the polyline, rasterize the segment and add
the `k_ring` of each discovered cell to the running result. -/
def processLineIntoH3Set (M : H3Model C) (fuel : ℕ) :
    List Point → Finset C → ℕ → Option (Finset C)
  | pA :: pB :: rest, result, n =>
    match h3LineLatLng M fuel pA pB with
    | some seg => processLineIntoH3Set M fuel (pB :: rest) (result ∪ dilate M n seg) n
    | none => none
  | _, result, _ => some result

/-- Consecutive point pairs of a polyline, `zip(line[:-1], line[1:])`. -/
def pairsOf : List Point → List (Point × Point)
  | a :: b :: rest => (a, b) :: pairsOf (b :: rest)
  | _ => []

/-- Coverage contributed by a single segment: its rasterized cells, each
replaced by its `k_ring` neighbourhood. -/
def segCov (M : H3Model C) (fuel n : ℕ) (p : Point × Point) : Option (Finset C) :=
  (h3LineLatLng M fuel p.1 p.2).map (dilate M n)

/-- Option-valued map over a list, failing as soon as one element fails. -/
def mapOption (f : α → Option β) : List α → Option (List β)
  | [] => some []
  | a :: l =>
    match f a, mapOption f l with
    | some b, some bs => some (b :: bs)
    | _, _ => none

/-- Last element of a list, if any. -/
def lastOpt : List α → Option α
  | [] => none
  | [a] => some a
  | _ :: b :: rest => lastOpt (b :: rest)

/-- A parsed feature: the GeoJSON geometry type tag, its coordinate list (used
only when the geometry is a line), and the remaining attributes abstracted as a
string.  Used both for Overpass elements and for BDOT features. -/
structure Feature where
  geomType : String
  coordinates : List Point
  props : String
deriving DecidableEq

/-- Diagnostic printed for a feature whose geometry is not a line. -/
def unsupportedMsg (t : String) : String := "Unsupported geometry type " ++ t

/-- Loop of `processOSMDataIntoH3Set`, threading the accumulated coverage set
and the printed diagnostics: non-line elements are skipped with a diagnostic,
line elements extend the set with their coverage at `neighbourhood_size = 1`. -/
def processOSMGo (M : H3Model C) (fuel : ℕ) :
    List Feature → Finset C → List String → Option (Finset C × List String)
  | [], acc, log => some (acc, log)
  | e :: rest, acc, log =>
    if e.geomType ≠ "LineString" then
      processOSMGo M fuel rest acc (log ++ [unsupportedMsg e.geomType])
    else
      match processLineIntoH3Set M fuel e.coordinates acc 1 with
      | some acc2 => processOSMGo M fuel rest acc2 log
      | none => none

/-- Authoritative coverage `processOSMDataIntoH3Set(osmData)`: union of the
coverages of all source-A line elements, built with `neighbourhood_size = 1`. -/
def processOSMDataIntoH3Set (M : H3Model C) (fuel : ℕ) (osmData : List Feature) :
    Option (Finset C × List String) :=
  processOSMGo M fuel osmData ∅ []

/-- Matching loop of `processTheme`: non-line features are skipped with a
diagnostic; each line feature gets its own coverage at `neighbourhood_size = 0`
and is appended to the output exactly when that coverage does not intersect the
authoritative set (`len(shared) == 0`).  Returns the output features and the
diagnostics, in program order. -/
def matchFeatures (M : H3Model C) (fuel : ℕ) (osmH3Set : Finset C) :
    List Feature → Option (List Feature × List String)
  | [] => some ([], [])
  | f :: rest =>
    if f.geomType ≠ "LineString" then
      match matchFeatures M fuel osmH3Set rest with
      | some (out, log) => some (out, unsupportedMsg f.geomType :: log)
      | none => none
    else
      match processLineIntoH3Set M fuel f.coordinates ∅ 0, matchFeatures M fuel osmH3Set rest with
      | some S, some (out, log) => some (if S ∩ osmH3Set = ∅ then f :: out else out, log)
      | _, _ => none

/-- The source-A line elements of a dataset, in order: the elements the loop of
`processOSMDataIntoH3Set` does not skip. -/
def lineFeatures : List Feature → List Feature
  | [] => []
  | f :: rest =>
    if f.geomType = "LineString" then f :: lineFeatures rest else lineFeatures rest

/-- Theme descriptor: name, Overpass way query, BDOT layer key. -/
structure Theme where
  name : String
  overpassWayQuery : String
  bdotLayer : String
deriving DecidableEq

/-- The fixed configuration-time list of themes of the program. -/
def THEMES : List Theme :=
  [⟨"roads",
    "\"highway\"~\"(service|primary|secondary|tertiary|motorway|residential|unclassified|living_street|trunk|trunk_link|primary_link|secondary_link|tertiary_link|motorway_link|pedestrian|track)\"",
    "OT_SKJZ_L"⟩,
   ⟨"noise_barriers", "wall=noise_barrier", "OT_OIKM_L"⟩,
   ⟨"powerlines", "power~\"(line|minor_line)\"", "OT_SULN_L"⟩,
   ⟨"footways", "\"highway\"~\"(footway|path|service|track|pedestrian)\"", "OT_SKRP_L"⟩]

/-- Observable effects of one `processTheme` call: completion of the Overpass
fetch, the authoritative coverage build (which runs inside the source-A task,
after its fetch), completion of the BDOT read, the matcher run over the BDOT
features, and the write of the output artifact. -/
inductive Event
  | fetchOverpass
  | buildOsmCoverage
  | fetchBdot
  | persistArtifact
  | matcherRun
deriving DecidableEq

/-- Cooperative interleaving of two event streams, directed by a schedule:
`true` advances the first task, `false` the second; an exhausted schedule or
task flushes the remainder in order. -/
def interleave : List Bool → List Event → List Event → List Event
  | [], ta, tb => ta ++ tb
  | true :: s, ta, tb =>
    match ta with
    | [] => tb
    | a :: ta2 => a :: interleave s ta2 tb
  | false :: s, ta, tb =>
    match tb with
    | [] => ta
    | b :: tb2 => b :: interleave s ta tb2

/-- Events of the source-A task `getOSMData`: it awaits the Overpass fetch and
then synchronously builds the authoritative coverage, still inside the task. -/
def taskAEvents : List Event := [Event.fetchOverpass, Event.buildOsmCoverage]

/-- Events of the source-B task `getBdotData`: the BDOT read. -/
def taskBEvents : List Event := [Event.fetchBdot]

/-- The two fetch collaborators: Overpass elements and parsed BDOT features
(after the fixed column drop), both keyed by theme and region code. -/
structure FetchEnv where
  osmData : Theme → String → List Feature
  bdotFeatures : Theme → String → List Feature

/-- Output artifact path `missingDir / f"{theme.name}-{teryt}.geojson"`. -/
def outputFileName (theme : Theme) (teryt : String) : String :=
  "missing/" ++ theme.name ++ "-" ++ teryt ++ ".geojson"

/-- Orchestrator `processTheme(theme, teryt)` over an explicit filesystem
(mapping file names to persisted feature collections): it returns unchanged
state and an empty trace when the output artifact already exists; otherwise it
gathers the two fetch tasks under an arbitrary schedule, matches every BDOT
feature against the authoritative set and persists the missing features. -/
def processTheme (M : H3Model C) (fuel : ℕ) (env : FetchEnv) (schedule : List Bool)
    (fs : String → Option (List Feature)) (theme : Theme) (teryt : String) :
    Option ((String → Option (List Feature)) × List Event) :=
  match fs (outputFileName theme teryt) with
  | some _ => some (fs, [])
  | none =>
    match processOSMDataIntoH3Set M fuel (env.osmData theme teryt) with
    | none => none
    | some (osmH3Set, _) =>
      match matchFeatures M fuel osmH3Set (env.bdotFeatures theme teryt) with
      | none => none
      | some (outputFeatures, _) =>
        some (Function.update fs (outputFileName theme teryt) (some outputFeatures),
          interleave schedule taskAEvents taskBEvents ++
            [Event.matcherRun, Event.persistArtifact])

/-- Degenerate h3 model mapping every point to a single cell; instantiates the
abstract model on concrete runs. -/
def unitModel : H3Model Unit where
  geoToH3 := fun _ _ _ => ()
  h3Distance := fun _ _ => 0
  kRing := fun _ _ => {()}

/-- Integer-grid h3 model: the cell of a point is the unit square containing
it, distance is the Chebyshev distance of squares, and the k-ring is the
square disk of the given radius. -/
def gridModel : H3Model (ℤ × ℤ) where
  geoToH3 := fun lat lng _ => (⌊lng⌋, ⌊lat⌋)
  h3Distance := fun a b => max |a.1 - b.1| |a.2 - b.2|
  kRing := fun c k =>
    Finset.Icc (c.1 - (k : ℤ)) (c.1 + (k : ℤ)) ×ˢ Finset.Icc (c.2 - (k : ℤ)) (c.2 + (k : ℤ))

/-- Concrete line feature used to instantiate the theorems. -/
def wLine : Feature := ⟨"LineString", [(0, 0), (1, 1)], "w"⟩

/-- Concrete non-line feature used to instantiate the theorems. -/
def wPointFeature : Feature := ⟨"Point", [(2, 2)], "p"⟩

/-- Concrete fetch environment: no Overpass elements, one BDOT line feature. -/
def wEnv : FetchEnv := ⟨fun _ _ => [], fun _ _ => [wLine]⟩

/-- Concrete fetch environment with no features on either side. -/
def wEnvEmpty : FetchEnv := ⟨fun _ _ => [], fun _ _ => []⟩

/-- Concrete theme used to instantiate the theorems. -/
def wTheme : Theme := ⟨"t", "q", "l"⟩

/-- Empty filesystem: no artifact exists. -/
def wFs : String → Option (List Feature) := fun _ => none

/-- Filesystem on which every artifact already exists (as an empty collection). -/
def wFsAll : String → Option (List Feature) := fun _ => some []

variable {γ : Type}

theorem foldl_union_shift (l : List (Finset C)) :
    ∀ b c : Finset C, l.foldl (· ∪ ·) (b ∪ c) = b ∪ l.foldl (· ∪ ·) c := by
  induction l with
  | nil => intro b c; rfl
  | cons a l ih =>
    intro b c
    simp only [List.foldl_cons, Finset.union_assoc]
    exact ih b (c ∪ a)

theorem foldl_union_init (l : List (Finset C)) (b : Finset C) :
    l.foldl (· ∪ ·) b = b ∪ l.foldl (· ∪ ·) ∅ := by
  have h := foldl_union_shift l b ∅
  rwa [Finset.union_empty] at h

theorem foldl_union_reverse (l : List (Finset C)) (b : Finset C) :
    l.reverse.foldl (· ∪ ·) b = l.foldl (· ∪ ·) b := by
  induction l generalizing b with
  | nil => rfl
  | cons a l ih =>
    rw [List.reverse_cons, List.foldl_append, ih]
    simp only [List.foldl_cons, List.foldl_nil]
    rw [foldl_union_init l b, foldl_union_init l (b ∪ a)]
    exact Finset.union_right_comm b (l.foldl (· ∪ ·) ∅) a

theorem mapOption_append (f : α → Option β) (l1 l2 : List α) :
    mapOption f (l1 ++ l2) =
      (mapOption f l1).bind fun b1 => (mapOption f l2).map fun b2 => b1 ++ b2 := by
  induction l1 with
  | nil => cases h : mapOption f l2 <;> simp [mapOption, h]
  | cons a l ih =>
    simp only [List.cons_append, mapOption, ih]
    cases hfa : f a <;> cases h1 : mapOption f l <;> cases h2 : mapOption f l2 <;>
      simp [ih, h1, h2]

theorem mapOption_reverse (f : α → Option β) (l : List α) :
    mapOption f l.reverse = (mapOption f l).map List.reverse := by
  induction l with
  | nil => rfl
  | cons a l ih =>
    rw [List.reverse_cons, mapOption_append, ih]
    cases hfa : f a <;> cases h1 : mapOption f l <;> simp [mapOption, hfa, h1]

theorem mapOption_comp_map (g : α → β) (f : β → Option γ) (l : List α) :
    mapOption f (l.map g) = mapOption (fun a => f (g a)) l := by
  induction l with
  | nil => rfl
  | cons a l ih => simp only [List.map_cons, mapOption, ih]

theorem mapOption_congr {f g : α → Option β} {l : List α} (h : ∀ a ∈ l, f a = g a) :
    mapOption f l = mapOption g l := by
  induction l with
  | nil => rfl
  | cons a l ih =>
    simp only [mapOption, h a (List.mem_cons_self a l),
      ih fun b hb => h b (List.mem_cons_of_mem a hb)]

theorem processLine_eq (M : H3Model C) (fuel n : ℕ) :
    ∀ (line : List Point) (res : Finset C),
      processLineIntoH3Set M fuel line res n =
        (mapOption (segCov M fuel n) (pairsOf line)).map fun l => l.foldl (· ∪ ·) res := by
  intro line
  induction line with
  | nil => intro res; rfl
  | cons a tail ih =>
    intro res
    cases tail with
    | nil => rfl
    | cons b rest =>
      simp only [processLineIntoH3Set, pairsOf, mapOption, segCov]
      cases hseg : h3LineLatLng M fuel a b with
      | none => simp
      | some seg =>
        cases hmo : mapOption (segCov M fuel n) (pairsOf (b :: rest)) with
        | none => simp [ih, hmo]
        | some covs => simp [ih, hmo, List.foldl_cons]

theorem processLine_acc (M : H3Model C) (fuel n : ℕ) (line : List Point) (res : Finset C) :
    processLineIntoH3Set M fuel line res n =
      (processLineIntoH3Set M fuel line ∅ n).map fun s => res ∪ s := by
  rw [processLine_eq, processLine_eq]
  cases hmo : mapOption (segCov M fuel n) (pairsOf line) with
  | none => rfl
  | some covs =>
    simp only [Option.map_some']
    exact congrArg some (foldl_union_init covs res)

theorem segCov_pair (M : H3Model C) (fuel n : ℕ) (p : Point × Point) :
    processLineIntoH3Set M fuel [p.1, p.2] ∅ n = segCov M fuel n p := by
  simp only [processLineIntoH3Set, segCov]
  cases h : h3LineLatLng M fuel p.1 p.2 <;> simp [h]

theorem lastOpt_concat (a : α) : ∀ l : List α, lastOpt (l ++ [a]) = some a := by
  intro l
  induction l with
  | nil => rfl
  | cons x l ih =>
    cases l with
    | nil => rfl
    | cons y l2 => simpa [lastOpt] using ih

theorem lastOpt_reverse (l : List α) : lastOpt l.reverse = l.head? := by
  cases l with
  | nil => rfl
  | cons a l => rw [List.reverse_cons, lastOpt_concat, List.head?_cons]

theorem pairsOf_concat (a : Point) :
    ∀ l : List Point,
      pairsOf (l ++ [a]) =
        pairsOf l ++ (match lastOpt l with | none => [] | some b => [(b, a)]) := by
  intro l
  induction l with
  | nil => rfl
  | cons x l ih =>
    cases l with
    | nil => rfl
    | cons y l2 =>
      simp only [List.cons_append] at ih ⊢
      simp only [pairsOf, lastOpt, ih, List.cons_append]

theorem pairsOf_reverse (l : List Point) :
    pairsOf l.reverse = (pairsOf l).reverse.map Prod.swap := by
  induction l with
  | nil => rfl
  | cons a l ih =>
    rw [List.reverse_cons, pairsOf_concat, ih, lastOpt_reverse]
    cases l with
    | nil => rfl
    | cons b l2 =>
      simp [pairsOf, List.head?_cons]

theorem midPoint_comm (s e : Point) : midPoint s e = midPoint e s := by
  simp only [midPoint, Prod.mk.injEq]
  constructor <;> ring

theorem h3LineLatLng_symm (M : H3Model C)
    (hsym : ∀ a b : C, M.h3Distance a b = M.h3Distance b a) :
    ∀ (fuel : ℕ) (s e : Point), h3LineLatLng M fuel s e = h3LineLatLng M fuel e s := by
  intro fuel
  induction fuel with
  | zero => intro s e; rfl
  | succ fuel ih =>
    intro s e
    simp only [h3LineLatLng]
    have hiff : (cellOf M s = cellOf M e ∨ M.h3Distance (cellOf M s) (cellOf M e) = 1) ↔
        (cellOf M e = cellOf M s ∨ M.h3Distance (cellOf M e) (cellOf M s) = 1) := by
      rw [eq_comm, hsym (cellOf M s) (cellOf M e)]
    by_cases hc : cellOf M s = cellOf M e ∨ M.h3Distance (cellOf M s) (cellOf M e) = 1
    · rw [if_pos hc, if_pos (hiff.mp hc), Finset.pair_comm]
    · rw [if_neg hc, if_neg (fun h2 => hc (hiff.mpr h2)), midPoint_comm e s]
      rw [show h3LineLatLng M fuel e (midPoint s e) = h3LineLatLng M fuel (midPoint s e) e from
        ih e (midPoint s e)]
      rw [show h3LineLatLng M fuel (midPoint s e) s = h3LineLatLng M fuel s (midPoint s e) from
        ih (midPoint s e) s]
      cases h3LineLatLng M fuel s (midPoint s e) <;>
        cases h3LineLatLng M fuel (midPoint s e) e <;>
          simp [Finset.union_comm]

theorem segCov_swap (M : H3Model C)
    (hsym : ∀ a b : C, M.h3Distance a b = M.h3Distance b a) (fuel n : ℕ) (p : Point × Point) :
    segCov M fuel n p.swap = segCov M fuel n p := by
  simp only [segCov, Prod.swap, h3LineLatLng_symm M hsym fuel p.2 p.1]

theorem processLine_reverse (M : H3Model C)
    (hsym : ∀ a b : C, M.h3Distance a b = M.h3Distance b a)
    (fuel n : ℕ) (line : List Point) (res : Finset C) :
    processLineIntoH3Set M fuel line.reverse res n =
      processLineIntoH3Set M fuel line res n := by
  rw [processLine_eq, processLine_eq, pairsOf_reverse, mapOption_comp_map,
    mapOption_congr (fun p _ => segCov_swap M hsym fuel n p), mapOption_reverse]
  cases hmo : mapOption (segCov M fuel n) (pairsOf line) with
  | none => rfl
  | some covs =>
    simp only [Option.map_some']
    exact congrArg some (foldl_union_reverse covs res)

theorem processLine_decomposable (M : H3Model C) (fuel n : ℕ) (line : List Point) :
    processLineIntoH3Set M fuel line ∅ n =
      (mapOption (fun p => processLineIntoH3Set M fuel [p.1, p.2] ∅ n) (pairsOf line)).map
        fun l => l.foldl (· ∪ ·) ∅ := by
  rw [processLine_eq, mapOption_congr (fun p _ => (segCov_pair M fuel n p).symm)]

theorem matchFeatures_mem (M : H3Model C) (fuel : ℕ) (osm : Finset C) :
    ∀ (features out : List Feature) (log : List String),
      matchFeatures M fuel osm features = some (out, log) →
      ∀ g : Feature,
        (g ∈ out ↔ g ∈ features ∧ g.geomType = "LineString" ∧
          ∃ S, processLineIntoH3Set M fuel g.coordinates ∅ 0 = some S ∧ S ∩ osm = ∅) := by
  intro features
  induction features with
  | nil =>
    intro out log h g
    simp only [matchFeatures, Option.some.injEq, Prod.mk.injEq] at h
    simp [← h.1]
  | cons f rest ih =>
    intro out log h g
    simp only [matchFeatures] at h
    by_cases hf : f.geomType = "LineString"
    · rw [if_neg (fun hne => hne hf)] at h
      cases hS : processLineIntoH3Set M fuel f.coordinates ∅ 0 with
      | none => rw [hS] at h; simp at h
      | some S =>
        rw [hS] at h
        cases hrest : matchFeatures M fuel osm rest with
        | none => rw [hrest] at h; simp at h
        | some pr =>
          obtain ⟨out2, log2⟩ := pr
          rw [hrest] at h
          simp only [Option.some.injEq, Prod.mk.injEq] at h
          obtain ⟨hout, hlog⟩ := h
          have ihg := ih out2 log2 hrest g
          by_cases hint : S ∩ osm = ∅
          · rw [if_pos hint] at hout
            subst hout
            constructor
            · intro hg
              rcases List.mem_cons.mp hg with hg | hg
              · subst hg; exact ⟨List.mem_cons_self _ _, hf, S, hS, hint⟩
              · have hr := ihg.mp hg
                exact ⟨List.mem_cons_of_mem _ hr.1, hr.2⟩
            · rintro ⟨hmem, hline, S2, hS2, hint2⟩
              rcases List.mem_cons.mp hmem with hgf | hgrest
              · subst hgf; exact List.mem_cons_self _ _
              · exact List.mem_cons_of_mem _ (ihg.mpr ⟨hgrest, hline, S2, hS2, hint2⟩)
          · rw [if_neg hint] at hout
            subst hout
            constructor
            · intro hg
              have hr := ihg.mp hg
              exact ⟨List.mem_cons_of_mem _ hr.1, hr.2⟩
            · rintro ⟨hmem, hline, S2, hS2, hint2⟩
              rcases List.mem_cons.mp hmem with hgf | hgrest
              · subst hgf
                rw [hS] at hS2
                injection hS2 with hSe
                subst hSe
                exact absurd hint2 hint
              · exact ihg.mpr ⟨hgrest, hline, S2, hS2, hint2⟩
    · rw [if_pos hf] at h
      cases hrest : matchFeatures M fuel osm rest with
      | none => rw [hrest] at h; simp at h
      | some pr =>
        obtain ⟨out2, log2⟩ := pr
        rw [hrest] at h
        simp only [Option.some.injEq, Prod.mk.injEq] at h
        obtain ⟨hout, hlog⟩ := h
        subst hout
        rw [ih out2 log2 hrest g]
        constructor
        · rintro ⟨hmem, hrest2⟩
          exact ⟨List.mem_cons_of_mem _ hmem, hrest2⟩
        · rintro ⟨hmem, hline, hrest2⟩
          rcases List.mem_cons.mp hmem with hgf | hgr
          · exact absurd (hgf ▸ hline) hf
          · exact ⟨hgr, hline, hrest2⟩

theorem matchFeatures_out_line (M : H3Model C) (fuel : ℕ) (osm : Finset C)
    (features out : List Feature) (log : List String)
    (h : matchFeatures M fuel osm features = some (out, log)) :
    ∀ g ∈ out, g.geomType = "LineString" := fun g hg =>
  ((matchFeatures_mem M fuel osm features out log h g).mp hg).2.1

theorem matchFeatures_skip (M : H3Model C) (fuel : ℕ) (osm : Finset C)
    (f : Feature) (rest : List Feature) (hf : f.geomType ≠ "LineString") :
    matchFeatures M fuel osm (f :: rest) =
      (matchFeatures M fuel osm rest).map fun r => (r.1, unsupportedMsg f.geomType :: r.2) := by
  simp only [matchFeatures, if_pos hf]
  cases hrest : matchFeatures M fuel osm rest with
  | none => rfl
  | some pr => obtain ⟨out, log⟩ := pr; rfl

theorem processOSMGo_skip (M : H3Model C) (fuel : ℕ) (e : Feature) (rest : List Feature)
    (acc : Finset C) (log : List String) (he : e.geomType ≠ "LineString") :
    processOSMGo M fuel (e :: rest) acc log =
      processOSMGo M fuel rest acc (log ++ [unsupportedMsg e.geomType]) := by
  simp only [processOSMGo, if_pos he]

theorem processOSMGo_set (M : H3Model C) (fuel : ℕ) :
    ∀ (data : List Feature) (acc : Finset C) (log : List String) (osm : Finset C)
      (lg : List String),
      processOSMGo M fuel data acc log = some (osm, lg) →
      ∃ covs, mapOption (fun e => processLineIntoH3Set M fuel e.coordinates ∅ 1)
          (lineFeatures data) = some covs ∧ osm = covs.foldl (· ∪ ·) acc := by
  intro data
  induction data with
  | nil =>
    intro acc log osm lg h
    simp only [processOSMGo, Option.some.injEq, Prod.mk.injEq] at h
    exact ⟨[], rfl, h.1.symm⟩
  | cons e rest ih =>
    intro acc log osm lg h
    simp only [processOSMGo] at h
    by_cases he : e.geomType = "LineString"
    · rw [if_neg (fun hne => hne he)] at h
      cases hacc : processLineIntoH3Set M fuel e.coordinates acc 1 with
      | none => rw [hacc] at h; simp at h
      | some acc2 =>
        rw [hacc] at h
        obtain ⟨covs, hcovs, hosm⟩ := ih acc2 log osm lg h
        rw [processLine_acc] at hacc
        cases hc : processLineIntoH3Set M fuel e.coordinates ∅ 1 with
        | none => rw [hc] at hacc; simp at hacc
        | some c =>
          rw [hc] at hacc
          simp only [Option.map_some', Option.some.injEq] at hacc
          refine ⟨c :: covs, ?_, ?_⟩
          · simp only [lineFeatures, if_pos he, mapOption, hc, hcovs]
          · rw [List.foldl_cons, hacc, hosm]
    · rw [if_pos he] at h
      obtain ⟨covs, hcovs, hosm⟩ := ih acc (log ++ [unsupportedMsg e.geomType]) osm lg h
      exact ⟨covs, by simpa [lineFeatures, if_neg he] using hcovs, hosm⟩

theorem processTheme_skip (M : H3Model C) (fuel : ℕ) (env : FetchEnv) (schedule : List Bool)
    (fs : String → Option (List Feature)) (theme : Theme) (teryt : String)
    (prior : List Feature) (h : fs (outputFileName theme teryt) = some prior) :
    processTheme M fuel env schedule fs theme teryt = some (fs, []) := by
  simp only [processTheme, h]

theorem processTheme_run (M : H3Model C) (fuel : ℕ) (env : FetchEnv) (schedule : List Bool)
    (fs : String → Option (List Feature)) (theme : Theme) (teryt : String)
    (osm : Finset C) (alog : List String) (out : List Feature) (blog : List String)
    (hnew : fs (outputFileName theme teryt) = none)
    (hosm : processOSMDataIntoH3Set M fuel (env.osmData theme teryt) = some (osm, alog))
    (hmatch : matchFeatures M fuel osm (env.bdotFeatures theme teryt) = some (out, blog)) :
    processTheme M fuel env schedule fs theme teryt =
      some (Function.update fs (outputFileName theme teryt) (some out),
        interleave schedule taskAEvents taskBEvents ++
          [Event.matcherRun, Event.persistArtifact]) := by
  simp only [processTheme, hnew, hosm, hmatch]

theorem processTheme_inv (M : H3Model C) (fuel : ℕ) (env : FetchEnv) (schedule : List Bool)
    (fs : String → Option (List Feature)) (theme : Theme) (teryt : String)
    (fs2 : String → Option (List Feature)) (tr : List Event)
    (h : processTheme M fuel env schedule fs theme teryt = some (fs2, tr)) :
    (∃ prior, fs (outputFileName theme teryt) = some prior ∧ fs2 = fs ∧ tr = []) ∨
    (fs (outputFileName theme teryt) = none ∧
      ∃ osm alog out blog,
        processOSMDataIntoH3Set M fuel (env.osmData theme teryt) = some (osm, alog) ∧
        matchFeatures M fuel osm (env.bdotFeatures theme teryt) = some (out, blog) ∧
        fs2 = Function.update fs (outputFileName theme teryt) (some out) ∧
        tr = interleave schedule taskAEvents taskBEvents ++
          [Event.matcherRun, Event.persistArtifact]) := by
  cases hf : fs (outputFileName theme teryt) with
  | some prior =>
    rw [processTheme_skip M fuel env schedule fs theme teryt prior hf] at h
    simp only [Option.some.injEq, Prod.mk.injEq] at h
    exact Or.inl ⟨prior, rfl, h.1.symm, h.2.symm⟩
  | none =>
    cases ho : processOSMDataIntoH3Set M fuel (env.osmData theme teryt) with
    | none =>
      have hnone : processTheme M fuel env schedule fs theme teryt = none := by
        simp only [processTheme, hf, ho]
      rw [hnone] at h
      exact absurd h (by simp)
    | some pr =>
      obtain ⟨osm, alog⟩ := pr
      cases hm : matchFeatures M fuel osm (env.bdotFeatures theme teryt) with
      | none =>
        have hnone : processTheme M fuel env schedule fs theme teryt = none := by
          simp only [processTheme, hf, ho, hm]
        rw [hnone] at h
        exact absurd h (by simp)
      | some pr2 =>
        obtain ⟨out, blog⟩ := pr2
        rw [processTheme_run M fuel env schedule fs theme teryt osm alog out blog hf ho hm] at h
        simp only [Option.some.injEq, Prod.mk.injEq] at h
        exact Or.inr ⟨rfl, osm, alog, out, blog, rfl, hm, h.1.symm, h.2.symm⟩

theorem interleave_nil_right : ∀ (s : List Bool) (ta : List Event), interleave s ta [] = ta := by
  intro s
  induction s with
  | nil => intro ta; simp [interleave]
  | cons head s ih =>
    intro ta
    cases head <;> cases ta <;> simp [interleave, ih]

theorem interleave_nil_left : ∀ (s : List Bool) (tb : List Event), interleave s [] tb = tb := by
  intro s
  induction s with
  | nil => intro tb; simp [interleave]
  | cons head s ih =>
    intro tb
    cases head <;> cases tb <;> simp [interleave, ih]

theorem interleave_tasks (s : List Bool) :
    interleave s taskAEvents taskBEvents =
        [Event.fetchOverpass, Event.buildOsmCoverage, Event.fetchBdot] ∨
      interleave s taskAEvents taskBEvents =
        [Event.fetchOverpass, Event.fetchBdot, Event.buildOsmCoverage] ∨
      interleave s taskAEvents taskBEvents =
        [Event.fetchBdot, Event.fetchOverpass, Event.buildOsmCoverage] := by
  have hpair : ∀ (s2 : List Bool) (x y : Event),
      interleave s2 [x] [y] = [x, y] ∨ interleave s2 [x] [y] = [y, x] := by
    intro s2
    induction s2 with
    | nil => intro x y; left; rfl
    | cons head s2 ih =>
      intro x y
      cases head
      · right; simp [interleave, interleave_nil_right]
      · left; simp [interleave, interleave_nil_left]
  cases s with
  | nil => left; rfl
  | cons head s2 =>
    cases head
    · right; right
      simp [interleave, taskAEvents, taskBEvents, interleave_nil_right]
    · rcases hpair s2 Event.buildOsmCoverage Event.fetchBdot with h | h
      · left; simp [interleave, taskAEvents, taskBEvents, h]
      · right; left; simp [interleave, taskAEvents, taskBEvents, h]

theorem chebDist_left_half (s e : Point) : chebDist s (midPoint s e) = chebDist s e / 2 := by
  unfold chebDist midPoint
  have h1 : s.1 - (s.1 + e.1) / 2 = (s.1 - e.1) / 2 := by ring
  have h2 : s.2 - (s.2 + e.2) / 2 = (s.2 - e.2) / 2 := by ring
  rw [h1, h2, abs_div, abs_div, abs_two]
  rcases le_total |s.1 - e.1| |s.2 - e.2| with h | h
  · rw [max_eq_right h, max_eq_right (by linarith : |s.1 - e.1| / 2 ≤ |s.2 - e.2| / 2)]
  · rw [max_eq_left h, max_eq_left (by linarith : |s.2 - e.2| / 2 ≤ |s.1 - e.1| / 2)]

theorem chebDist_right_half (s e : Point) : chebDist (midPoint s e) e = chebDist s e / 2 := by
  unfold chebDist midPoint
  have h1 : (s.1 + e.1) / 2 - e.1 = (s.1 - e.1) / 2 := by ring
  have h2 : (s.2 + e.2) / 2 - e.2 = (s.2 - e.2) / 2 := by ring
  rw [h1, h2, abs_div, abs_div, abs_two]
  rcases le_total |s.1 - e.1| |s.2 - e.2| with h | h
  · rw [max_eq_right h, max_eq_right (by linarith : |s.1 - e.1| / 2 ≤ |s.2 - e.2| / 2)]
  · rw [max_eq_left h, max_eq_left (by linarith : |s.2 - e.2| / 2 ≤ |s.1 - e.1| / 2)]

theorem h3LineLatLng_succ (M : H3Model C) (fuel : ℕ) (s e : Point) :
    h3LineLatLng M (fuel + 1) s e =
      if cellOf M s = cellOf M e ∨ M.h3Distance (cellOf M s) (cellOf M e) = 1 then
        some {cellOf M s, cellOf M e}
      else
        match h3LineLatLng M fuel s (midPoint s e), h3LineLatLng M fuel (midPoint s e) e with
        | some a, some b => some (a ∪ b)
        | _, _ => none := rfl

theorem h3LineLatLng_fuel (M : H3Model C) (eps : ℚ) (heps : 0 < eps)
    (hcell : ∀ p q : Point, chebDist p q ≤ eps →
      cellOf M p = cellOf M q ∨ M.h3Distance (cellOf M p) (cellOf M q) = 1) :
    ∀ (k : ℕ) (s e : Point), chebDist s e ≤ 2 ^ k * eps →
      (h3LineLatLng M (k + 1) s e).isSome = true := by
  intro k
  induction k with
  | zero =>
    intro s e h
    rw [pow_zero, one_mul] at h
    rw [h3LineLatLng_succ, if_pos (hcell s e h)]
    rfl
  | succ k ih =>
    intro s e h
    rw [h3LineLatLng_succ]
    by_cases hc : cellOf M s = cellOf M e ∨ M.h3Distance (cellOf M s) (cellOf M e) = 1
    · rw [if_pos hc]; rfl
    · rw [if_neg hc]
      set X := 2 ^ k * eps with hX
      have hX2 : 2 ^ (k + 1) * eps = 2 * X := by rw [hX]; ring
      rw [hX2] at h
      have hhalf : chebDist s e / 2 ≤ X := by linarith
      have hL : chebDist s (midPoint s e) ≤ X := by rw [chebDist_left_half]; exact hhalf
      have hR : chebDist (midPoint s e) e ≤ X := by rw [chebDist_right_half]; exact hhalf
      obtain ⟨a, ha⟩ := Option.isSome_iff_exists.mp (ih s (midPoint s e) hL)
      obtain ⟨b, hb⟩ := Option.isSome_iff_exists.mp (ih (midPoint s e) e hR)
      rw [ha, hb]
      rfl

theorem h3LineLatLng_total (M : H3Model C) (eps : ℚ) (heps : 0 < eps)
    (hcell : ∀ p q : Point, chebDist p q ≤ eps →
      cellOf M p = cellOf M q ∨ M.h3Distance (cellOf M p) (cellOf M q) = 1)
    (s e : Point) : ∃ n : ℕ, (h3LineLatLng M n s e).isSome = true := by
  obtain ⟨k, hk⟩ := exists_nat_gt (chebDist s e / eps)
  have hk2 : (k : ℚ) ≤ 2 ^ k := by
    exact_mod_cast Nat.le_of_lt (Nat.lt_two_pow k)
  have hbound : chebDist s e ≤ 2 ^ k * eps := by
    have h1 : chebDist s e < (k : ℚ) * eps := by
      rw [div_lt_iff heps] at hk
      linarith
    have h2 : (k : ℚ) * eps ≤ 2 ^ k * eps :=
      mul_le_mul_of_nonneg_right hk2 (le_of_lt heps)
    linarith
  exact ⟨k + 1, h3LineLatLng_fuel M eps heps hcell k s e hbound⟩

/-- C3: for every pair of start and end points, the recursive segment
rasterization terminates: bisecting the segment at its geographic midpoint
exactly halves its (Chebyshev) length at each step, while the cell size is
fixed and positive — there is a positive radius within which two points always
map to equal or hex-adjacent cells — so the same-cell-or-adjacent stopping
condition is eventually met and some finite recursion depth returns a result. -/
theorem claim_C3_termination (M : H3Model C)
    (hcell : ∃ eps : ℚ, 0 < eps ∧ ∀ p q : Point, chebDist p q ≤ eps →
      cellOf M p = cellOf M q ∨ M.h3Distance (cellOf M p) (cellOf M q) = 1)
    (s e : Point) :
    chebDist s (midPoint s e) = chebDist s e / 2 ∧
    chebDist (midPoint s e) e = chebDist s e / 2 ∧
    ∃ n : ℕ, (h3LineLatLng M n s e).isSome = true := by
  obtain ⟨eps, heps, hc⟩ := hcell
  exact ⟨chebDist_left_half s e, chebDist_right_half s e,
    h3LineLatLng_total M eps heps hc s e⟩

/-- C3 witness: the positive-cell-size hypothesis and the termination
conclusion instantiated at the single-cell model and a concrete segment. -/
theorem claim_C3_witness :
    (∃ eps : ℚ, 0 < eps ∧ ∀ p q : Point, chebDist p q ≤ eps →
      cellOf unitModel p = cellOf unitModel q ∨
        unitModel.h3Distance (cellOf unitModel p) (cellOf unitModel q) = 1) ∧
    ∃ n : ℕ, (h3LineLatLng unitModel n ((0 : ℚ), (0 : ℚ)) ((3 : ℚ), (5 : ℚ))).isSome = true := by
  constructor
  · exact ⟨1, one_pos, fun p q _ => Or.inl rfl⟩
  · exact (claim_C3_termination unitModel ⟨1, one_pos, fun p q _ => Or.inl rfl⟩
      ((0 : ℚ), (0 : ℚ)) ((3 : ℚ), (5 : ℚ))).2.2

/-- C4: for every point p and every positive recursion budget, rasterizing the
degenerate segment from p to p returns exactly the singleton set containing
the cell of p at the fixed resolution. -/
theorem claim_C4_degenerate_segment (M : H3Model C) (fuel : ℕ) (p : Point) :
    h3LineLatLng M (fuel + 1) p p = some {cellOf M p} := by
  rw [h3LineLatLng_succ, if_pos (Or.inl rfl)]
  exact congrArg some (Finset.insert_eq_self.mpr (Finset.mem_singleton_self _))

/-- C5: for every input geometry, every dilation radius and every initial
accumulator, the coverage set produced by the coverage builder is unchanged
when the order of the geometry points is reversed, provided the hex-graph
distance of the h3 model is symmetric (as it is for the h3 library). -/
theorem claim_C5_reversal (M : H3Model C)
    (hsym : ∀ a b : C, M.h3Distance a b = M.h3Distance b a)
    (fuel n : ℕ) (line : List Point) (result : Finset C) :
    processLineIntoH3Set M fuel line.reverse result n =
      processLineIntoH3Set M fuel line result n :=
  processLine_reverse M hsym fuel n line result

/-- C5 witness: symmetry of the grid-model distance and the reversal equation
on a concrete two-segment polyline. -/
theorem claim_C5_witness :
    (∀ a b : ℤ × ℤ, gridModel.h3Distance a b = gridModel.h3Distance b a) ∧
    processLineIntoH3Set gridModel 5
        [((2 : ℚ), (1 : ℚ)), ((1 : ℚ), (1 : ℚ)), ((0 : ℚ), (0 : ℚ))] ∅ 0 =
      processLineIntoH3Set gridModel 5
        [((0 : ℚ), (0 : ℚ)), ((1 : ℚ), (1 : ℚ)), ((2 : ℚ), (1 : ℚ))] ∅ 0 := by
  have hsym : ∀ a b : ℤ × ℤ, gridModel.h3Distance a b = gridModel.h3Distance b a := by
    intro a b
    simp only [gridModel, abs_sub_comm]
  refine ⟨hsym, ?_⟩
  have h := claim_C5_reversal gridModel hsym 5 0
    [((0 : ℚ), (0 : ℚ)), ((1 : ℚ), (1 : ℚ)), ((2 : ℚ), (1 : ℚ))] ∅
  simpa using h

/-- C6: for every multi-segment line and every dilation radius, the coverage of
the whole line equals the (left-folded) union of the coverages of its
individual consecutive-point segments, even though the implementation dilates
each cell as it is discovered rather than dilating the unioned segment cells
afterwards; when any segment rasterization fails, both sides fail alike. -/
theorem claim_C6_decomposability (M : H3Model C) (fuel n : ℕ) (line : List Point) :
    processLineIntoH3Set M fuel line ∅ n =
      (mapOption (fun p => processLineIntoH3Set M fuel [p.1, p.2] ∅ n) (pairsOf line)).map
        (fun l => l.foldl (· ∪ ·) ∅) :=
  processLine_decomposable M fuel n line

/-- C1: for every source-B feature of one (theme, region) unit whose geometry
type is a line, a completed run includes the feature in the persisted output
artifact if and only if its coverage set, built with dilation radius 0, has
empty intersection with the authoritative coverage set built from source A. -/
theorem claim_C1_diff_membership (M : H3Model C) (fuel : ℕ) (env : FetchEnv)
    (schedule : List Bool) (fs : String → Option (List Feature)) (theme : Theme)
    (teryt : String) (fs2 : String → Option (List Feature)) (tr : List Event)
    (osm : Finset C) (alog : List String) (out : List Feature) (f : Feature)
    (hnew : fs (outputFileName theme teryt) = none)
    (hrun : processTheme M fuel env schedule fs theme teryt = some (fs2, tr))
    (hosm : processOSMDataIntoH3Set M fuel (env.osmData theme teryt) = some (osm, alog))
    (hout : fs2 (outputFileName theme teryt) = some out)
    (hmem : f ∈ env.bdotFeatures theme teryt) (hline : f.geomType = "LineString") :
    f ∈ out ↔
      ∃ S, processLineIntoH3Set M fuel f.coordinates ∅ 0 = some S ∧ S ∩ osm = ∅ := by
  rcases processTheme_inv M fuel env schedule fs theme teryt fs2 tr hrun with
    ⟨prior, hprior, _, _⟩ | ⟨_, osm2, alog2, out2, blog2, hosm2, hmatch2, hfs2, _⟩
  · rw [hnew] at hprior
    exact absurd hprior (by simp)
  · simp only [hosm, Option.some.injEq, Prod.mk.injEq] at hosm2
    obtain ⟨hosmEq, _⟩ := hosm2
    subst hosmEq
    rw [hfs2, Function.update_same] at hout
    injection hout with houtEq
    subst houtEq
    rw [matchFeatures_mem M fuel osm (env.bdotFeatures theme teryt) out2 blog2 hmatch2 f]
    simp [hmem, hline]

/-- C1 witness: a concrete completed run on one line feature against an empty
authoritative set; the hypotheses are discharged by evaluation and the
membership equivalence comes from the claim theorem. -/
theorem claim_C1_witness :
    wFs (outputFileName wTheme "00") = none ∧
    processTheme unitModel 1 wEnv [] wFs wTheme "00" =
      some (Function.update wFs (outputFileName wTheme "00") (some [wLine]),
        [Event.fetchOverpass, Event.buildOsmCoverage, Event.fetchBdot,
          Event.matcherRun, Event.persistArtifact]) ∧
    processOSMDataIntoH3Set unitModel 1 (wEnv.osmData wTheme "00") = some (∅, []) ∧
    Function.update wFs (outputFileName wTheme "00") (some [wLine])
        (outputFileName wTheme "00") = some [wLine] ∧
    wLine ∈ wEnv.bdotFeatures wTheme "00" ∧
    wLine.geomType = "LineString" ∧
    (wLine ∈ [wLine] ↔
      ∃ S, processLineIntoH3Set unitModel 1 wLine.coordinates ∅ 0 = some S ∧
        S ∩ (∅ : Finset Unit) = ∅) := by
  have hrun : processTheme unitModel 1 wEnv [] wFs wTheme "00" =
      some (Function.update wFs (outputFileName wTheme "00") (some [wLine]),
        [Event.fetchOverpass, Event.buildOsmCoverage, Event.fetchBdot,
          Event.matcherRun, Event.persistArtifact]) := rfl
  have hout : Function.update wFs (outputFileName wTheme "00") (some [wLine])
      (outputFileName wTheme "00") = some [wLine] := Function.update_same _ _ _
  exact ⟨rfl, hrun, rfl, hout, List.mem_cons_self _ _, rfl,
    claim_C1_diff_membership unitModel 1 wEnv [] wFs wTheme "00" _ _ ∅ [] [wLine] wLine
      rfl hrun rfl hout (List.mem_cons_self _ _) rfl⟩

/-- C2: the authoritative coverage set of a run equals the (left-folded) union
of the per-feature coverage sets of the source-A line elements, each built with
dilation radius 1; and every source-B line feature is classified through a
coverage set built with dilation radius 0, as the membership characterization
of the matcher output shows. -/
theorem claim_C2_dilation_policy (M : H3Model C) (fuel : ℕ) :
    (∀ (osmData : List Feature) (osm : Finset C) (log : List String),
      processOSMDataIntoH3Set M fuel osmData = some (osm, log) →
      ∃ covs, mapOption (fun e => processLineIntoH3Set M fuel e.coordinates ∅ 1)
          (lineFeatures osmData) = some covs ∧ osm = covs.foldl (· ∪ ·) ∅) ∧
    (∀ (osm : Finset C) (features out : List Feature) (log : List String) (f : Feature),
      matchFeatures M fuel osm features = some (out, log) → f ∈ features →
      f.geomType = "LineString" →
      (f ∈ out ↔
        ∃ S, processLineIntoH3Set M fuel f.coordinates ∅ 0 = some S ∧ S ∩ osm = ∅)) := by
  constructor
  · intro osmData osm log h
    exact processOSMGo_set M fuel osmData ∅ [] osm log h
  · intro osm features out log f h hmem hline
    rw [matchFeatures_mem M fuel osm features out log h f]
    simp [hmem, hline]

/-- C2 witness: the authoritative set of one concrete line element is its
dilation-1 coverage, and a concrete feature whose dilation-0 coverage meets the
authoritative set is classified present (absent from the output). -/
theorem claim_C2_witness :
    processOSMDataIntoH3Set unitModel 1 [wLine] = some ({()}, []) ∧
    (∃ covs, mapOption (fun e => processLineIntoH3Set unitModel 1 e.coordinates ∅ 1)
        (lineFeatures [wLine]) = some covs ∧ ({()} : Finset Unit) = covs.foldl (· ∪ ·) ∅) ∧
    matchFeatures unitModel 1 {()} [wLine] = some ([], []) ∧
    wLine ∈ [wLine] ∧ wLine.geomType = "LineString" ∧
    (wLine ∈ ([] : List Feature) ↔
      ∃ S, processLineIntoH3Set unitModel 1 wLine.coordinates ∅ 0 = some S ∧
        S ∩ ({()} : Finset Unit) = ∅) := by
  refine ⟨rfl, ?_, rfl, List.mem_cons_self _ _, rfl, ?_⟩
  · exact (claim_C2_dilation_policy unitModel 1).1 [wLine] {()} [] rfl
  · exact (claim_C2_dilation_policy unitModel 1).2 {()} [wLine] [] [] wLine rfl
      (List.mem_cons_self _ _) rfl

/-- C7: a feature whose geometry type is not a line is skipped: the matcher
result on it equals the result on the remaining features with one diagnostic
prepended (local recovery, processing continues), every feature of the missing
outcome has a line geometry — so a skipped feature is in neither the present
nor the missing outcome — and the source-A loop skips non-line elements the
same way, appending a diagnostic. -/
theorem claim_C7_unsupported_skip (M : H3Model C) (fuel : ℕ) :
    (∀ (osm : Finset C) (f : Feature) (rest : List Feature), f.geomType ≠ "LineString" →
      matchFeatures M fuel osm (f :: rest) =
        (matchFeatures M fuel osm rest).map fun r =>
          (r.1, unsupportedMsg f.geomType :: r.2)) ∧
    (∀ (osm : Finset C) (features out : List Feature) (log : List String),
      matchFeatures M fuel osm features = some (out, log) →
      ∀ g ∈ out, g.geomType = "LineString") ∧
    (∀ (e : Feature) (rest : List Feature) (acc : Finset C) (log : List String),
      e.geomType ≠ "LineString" →
      processOSMGo M fuel (e :: rest) acc log =
        processOSMGo M fuel rest acc (log ++ [unsupportedMsg e.geomType])) :=
  ⟨fun osm f rest hf => matchFeatures_skip M fuel osm f rest hf,
   fun osm features out log h => matchFeatures_out_line M fuel osm features out log h,
   fun e rest acc log he => processOSMGo_skip M fuel e rest acc log he⟩

/-- C7 witness: a concrete point feature is skipped with a diagnostic, the
remaining line feature is still processed, and the point feature is absent from
the missing outcome. -/
theorem claim_C7_witness :
    wPointFeature.geomType ≠ "LineString" ∧
    matchFeatures unitModel 1 ∅ [wPointFeature, wLine] =
      (matchFeatures unitModel 1 ∅ [wLine]).map
        (fun r => (r.1, unsupportedMsg wPointFeature.geomType :: r.2)) ∧
    matchFeatures unitModel 1 ∅ [wPointFeature, wLine] =
      some ([wLine], [unsupportedMsg "Point"]) ∧
    (∀ g ∈ [wLine], g.geomType = "LineString") ∧
    processOSMGo unitModel 1 [wPointFeature] ∅ [] =
      processOSMGo unitModel 1 [] ∅ ([] ++ [unsupportedMsg wPointFeature.geomType]) := by
  have hne : wPointFeature.geomType ≠ "LineString" := by decide
  refine ⟨hne, ?_, rfl, ?_, ?_⟩
  · exact (claim_C7_unsupported_skip unitModel 1).1 ∅ wPointFeature [wLine] hne
  · exact (claim_C7_unsupported_skip unitModel 1).2.1 ∅ [wPointFeature, wLine] [wLine]
      [unsupportedMsg "Point"] rfl
  · exact (claim_C7_unsupported_skip unitModel 1).2.2 wPointFeature [] ∅ [] hne

/-- C8: for every (theme, region) unit whose persisted artifact already exists,
processing the unit performs no fetch and no matcher invocation — its event
trace is empty — and leaves the filesystem state unchanged (short-circuit). -/
theorem claim_C8_short_circuit (M : H3Model C) (fuel : ℕ) (env : FetchEnv)
    (schedule : List Bool) (fs : String → Option (List Feature)) (theme : Theme)
    (teryt : String) (prior : List Feature)
    (h : fs (outputFileName theme teryt) = some prior) :
    processTheme M fuel env schedule fs theme teryt = some (fs, []) :=
  processTheme_skip M fuel env schedule fs theme teryt prior h

/-- C8 witness: on a filesystem where the artifact exists, the run returns the
unchanged state with an empty trace. -/
theorem claim_C8_witness :
    wFsAll (outputFileName wTheme "00") = some [] ∧
    processTheme unitModel 1 wEnv [] wFsAll wTheme "00" = some (wFsAll, []) :=
  ⟨rfl, claim_C8_short_circuit unitModel 1 wEnv [] wFsAll wTheme "00" [] rfl⟩

/-- C9 (amended): for every unit, a successful run yields the same resulting
state under every fetch-completion interleaving, and the matcher stage runs
strictly after both fetch completions — a join over exactly the two fetch
tasks; the authoritative coverage build, however, runs inside the source-A
task and is not ordered after the source-B fetch. -/
theorem claim_C9_strict_join (M : H3Model C) (fuel : ℕ) (env : FetchEnv)
    (s1 s2 : List Bool) (fs : String → Option (List Feature)) (theme : Theme)
    (teryt : String) (fs2 : String → Option (List Feature)) (tr : List Event)
    (h : processTheme M fuel env s1 fs theme teryt = some (fs2, tr)) :
    (∃ tr2, processTheme M fuel env s2 fs theme teryt = some (fs2, tr2)) ∧
    (Event.matcherRun ∈ tr →
      tr.indexOf Event.fetchOverpass < tr.indexOf Event.matcherRun ∧
      tr.indexOf Event.fetchBdot < tr.indexOf Event.matcherRun) := by
  rcases processTheme_inv M fuel env s1 fs theme teryt fs2 tr h with
    ⟨prior, hprior, hfs, htr⟩ | ⟨hnone, osm, alog, out, blog, hosm, hmatch, hfs, htr⟩
  · subst hfs; subst htr
    exact ⟨⟨[], processTheme_skip M fuel env s2 _ theme teryt prior hprior⟩,
      fun hm => absurd hm (by simp)⟩
  · subst hfs; subst htr
    refine ⟨⟨interleave s2 taskAEvents taskBEvents ++
        [Event.matcherRun, Event.persistArtifact],
      processTheme_run M fuel env s2 fs theme teryt osm alog out blog hnone hosm hmatch⟩, ?_⟩
    intro _
    rcases interleave_tasks s1 with h1 | h1 | h1 <;> rw [h1] <;> exact (by decide)

/-- C9 witness: a concrete run scheduled with the source-B fetch completing
first yields the same persisted state as the default schedule, and its matcher
event follows both fetch events. -/
theorem claim_C9_witness :
    processTheme unitModel 1 wEnv [false] wFs wTheme "00" =
      some (Function.update wFs (outputFileName wTheme "00") (some [wLine]),
        [Event.fetchBdot, Event.fetchOverpass, Event.buildOsmCoverage,
          Event.matcherRun, Event.persistArtifact]) ∧
    (∃ tr2, processTheme unitModel 1 wEnv [] wFs wTheme "00" =
      some (Function.update wFs (outputFileName wTheme "00") (some [wLine]), tr2)) ∧
    ([Event.fetchBdot, Event.fetchOverpass, Event.buildOsmCoverage,
        Event.matcherRun, Event.persistArtifact].indexOf Event.fetchOverpass <
      [Event.fetchBdot, Event.fetchOverpass, Event.buildOsmCoverage,
        Event.matcherRun, Event.persistArtifact].indexOf Event.matcherRun ∧
      [Event.fetchBdot, Event.fetchOverpass, Event.buildOsmCoverage,
        Event.matcherRun, Event.persistArtifact].indexOf Event.fetchBdot <
      [Event.fetchBdot, Event.fetchOverpass, Event.buildOsmCoverage,
        Event.matcherRun, Event.persistArtifact].indexOf Event.matcherRun) := by
  have hrun : processTheme unitModel 1 wEnv [false] wFs wTheme "00" =
      some (Function.update wFs (outputFileName wTheme "00") (some [wLine]),
        [Event.fetchBdot, Event.fetchOverpass, Event.buildOsmCoverage,
          Event.matcherRun, Event.persistArtifact]) := rfl
  have hres := claim_C9_strict_join unitModel 1 wEnv [false] [] wFs wTheme "00"
    (Function.update wFs (outputFileName wTheme "00") (some [wLine]))
    [Event.fetchBdot, Event.fetchOverpass, Event.buildOsmCoverage,
      Event.matcherRun, Event.persistArtifact] hrun
  exact ⟨hrun, hres.1, hres.2 (by decide)⟩

/-- C9 counterexample: under the schedule that runs the source-A task to
completion first, a successful run produces a trace in which the authoritative
coverage build precedes the completion of the source-B fetch, refuting that
coverage building starts only after the join over the two fetch tasks. -/
theorem claim_C9_counterexample :
    processTheme unitModel 1 wEnv [true, true] wFs wTheme "00" =
      some (Function.update wFs (outputFileName wTheme "00") (some [wLine]),
        [Event.fetchOverpass, Event.buildOsmCoverage, Event.fetchBdot,
          Event.matcherRun, Event.persistArtifact]) ∧
    ¬ ([Event.fetchOverpass, Event.buildOsmCoverage, Event.fetchBdot,
          Event.matcherRun, Event.persistArtifact].indexOf Event.fetchBdot <
        [Event.fetchOverpass, Event.buildOsmCoverage, Event.fetchBdot,
          Event.matcherRun, Event.persistArtifact].indexOf Event.buildOsmCoverage) :=
  ⟨rfl, by decide⟩

/-- C10: a unit that completes matching persists its artifact — even when the
missing set is empty, the (then empty) feature collection is written — and the
existence of the persisted artifact makes every later run of the same unit
short-circuit with no events and unchanged state. -/
theorem claim_C10_persist_and_skip (M : H3Model C) (fuel : ℕ) (env : FetchEnv)
    (s1 s2 : List Bool) (fs : String → Option (List Feature)) (theme : Theme)
    (teryt : String) (osm : Finset C) (alog : List String) (out : List Feature)
    (blog : List String)
    (hnew : fs (outputFileName theme teryt) = none)
    (hosm : processOSMDataIntoH3Set M fuel (env.osmData theme teryt) = some (osm, alog))
    (hmatch : matchFeatures M fuel osm (env.bdotFeatures theme teryt) = some (out, blog)) :
    processTheme M fuel env s1 fs theme teryt =
      some (Function.update fs (outputFileName theme teryt) (some out),
        interleave s1 taskAEvents taskBEvents ++
          [Event.matcherRun, Event.persistArtifact]) ∧
    Function.update fs (outputFileName theme teryt) (some out)
        (outputFileName theme teryt) = some out ∧
    processTheme M fuel env s2 (Function.update fs (outputFileName theme teryt) (some out))
        theme teryt =
      some (Function.update fs (outputFileName theme teryt) (some out), []) := by
  refine ⟨processTheme_run M fuel env s1 fs theme teryt osm alog out blog hnew hosm hmatch,
    Function.update_same _ _ _, ?_⟩
  exact processTheme_skip M fuel env s2 _ theme teryt out (Function.update_same _ _ _)

/-- C10 witness: a concrete run with no source-B features writes the empty
feature collection and a second run short-circuits on it. -/
theorem claim_C10_witness :
    wFs (outputFileName wTheme "00") = none ∧
    processOSMDataIntoH3Set unitModel 1 (wEnvEmpty.osmData wTheme "00") = some (∅, []) ∧
    matchFeatures unitModel 1 ∅ (wEnvEmpty.bdotFeatures wTheme "00") = some ([], []) ∧
    Function.update wFs (outputFileName wTheme "00") (some [])
        (outputFileName wTheme "00") = some [] ∧
    processTheme unitModel 1 wEnvEmpty []
        (Function.update wFs (outputFileName wTheme "00") (some [])) wTheme "00" =
      some (Function.update wFs (outputFileName wTheme "00") (some []), []) := by
  have h := claim_C10_persist_and_skip unitModel 1 wEnvEmpty [] [] wFs wTheme "00" ∅ [] [] []
    rfl rfl rfl
  exact ⟨rfl, rfl, rfl, h.2.1, h.2.2⟩
